import Mathlib

/-!
Verification of the ForcePet repository's metadata engine against its
natural-language specification.

The development shallowly embeds the relevant Python functions of
`src/authentication/salesforce_client.py` and `src/query/views.py`:

* `to18CharId`          embeds `_to_18_char_id` (salesforce_client.py:22-34)
* `flatten_record`      embeds `flatten_record` (query/views.py:26-62)
* `buildProjection`, `dedupe`, `buildColumns`
                        embed the field-list construction inside
                        `list_metadata` (salesforce_client.py:576-615, 693-702)
* `listMetadataPaginate` embeds the continuation-token loop of
                        `list_metadata` (salesforce_client.py:677-705)
* `fetchMetadataDetailModel` embeds the resolution core of
                        `fetch_metadata_detail` (salesforce_client.py:707-786)

Python dictionaries are modelled as ordered association lists with the
assignment operation `dinsert` (replace in place, else append), which is
exactly Python's insertion-ordered dict behaviour on nodup-key lists.
-/

/-- Model of a Python JSON-ish value: scalars, lists and (ordered) dicts. -/
inductive PyVal where
  | vStr (s : String)
  | vInt (n : Int)
  | vBool (b : Bool)
  | vNone
  | vList (xs : List PyVal)
  | vDict (entries : List (String × PyVal))

/-- Ordered association list standing for a Python dict. -/
abbrev Entries := List (String × PyVal)

/-- Python `key in d`. -/
def containsKey (d : Entries) (k : String) : Bool :=
  d.any (fun p => p.1 == k)

/-- Python `d.get(key)`: value of the first entry with the given key. -/
def dictGet (d : Entries) (k : String) : Option PyVal :=
  match d.find? (fun p => p.1 == k) with
  | some p => some p.2
  | none => none

/-- Python `d.get(key, default)`. -/
def dictGetD (d : Entries) (k : String) (v : PyVal) : PyVal :=
  (dictGet d k).getD v

/-- Python `d[key] = v` on an insertion-ordered dict: replace the value in
place when the key exists, else append the pair at the end. -/
def dinsert (d : Entries) (k : String) (v : PyVal) : Entries :=
  if containsKey d k then d.map (fun p => if p.1 == k then (k, v) else p)
  else d ++ [(k, v)]

/-- The sub-query result-page shape test of query/views.py:36,
`'records' in data and 'done' in data`. -/
def isSubqueryShape (d : Entries) : Bool :=
  containsKey d "records" && containsKey d "done"

/-- The tagged marker built at query/views.py:39-43 for a sub-query page:
`{'_is_subquery': True, 'count': data.get('totalSize', 0),
  'records': data.get('records', [])}`. -/
def subqueryMarker (d : Entries) : PyVal :=
  .vDict [("_is_subquery", .vBool true),
          ("count", dictGetD d "totalSize" (.vInt 0)),
          ("records", dictGetD d "records" (.vList []))]

/-- The recursive worker `recurse` of `flatten_record` (query/views.py:33-59),
specialised to dict entries; the dict branch of `recurse` is inlined at the
recursive call site (a nested dict value is either a sub-query page, emitted
under the extended prefix, or its entries are walked with the extended
prefix). `acc` is the mutated `flat_record`. -/
def flattenEntries (sep : String) : Entries → String → Entries → Entries
  | [], _, acc => acc
  | (k, v) :: rest, pfx, acc =>
    if k == "attributes" then flattenEntries sep rest pfx acc
    else
      match v with
      | .vDict sd =>
        if isSubqueryShape sd then
          flattenEntries sep rest pfx (dinsert acc (pfx ++ k ++ sep) (subqueryMarker sd))
        else
          flattenEntries sep rest pfx (flattenEntries sep sd (pfx ++ k ++ sep) acc)
      | _ => flattenEntries sep rest pfx (dinsert acc (pfx ++ k) v)
termination_by es _ _ => sizeOf es
decreasing_by all_goals (simp_wf <;> omega)

/-- Embedding of `flatten_record(record, separator='.')` (query/views.py:26-62).
The top level dispatches exactly as `recurse(record)` with the empty prefix:
a dict is either a sub-query page (emitted under key `''`) or walked entry by
entry; any non-dict is assigned under key `''`. -/
def flatten_record (record : PyVal) (sep : String := ".") : Entries :=
  match record with
  | .vDict d =>
    if isSubqueryShape d then dinsert [] "" (subqueryMarker d)
    else flattenEntries sep d "" []
  | v => dinsert [] "" v

/-- The fixed checksum alphabet of `_to_18_char_id` (salesforce_client.py:25). -/
def idChecksumAlphabet : List Char := "ABCDEFGHIJKLMNOPQRSTUVWXYZ012345".data

/-- Python test `"A" <= char <= "Z"`. -/
def isUpperAZ (c : Char) : Bool := decide ('A' ≤ c) && decide (c ≤ 'Z')

/-- The inner loop of `_to_18_char_id` (salesforce_client.py:29-32):
`bits |= 1 << index` for every uppercase character of the chunk. -/
def chunkMaskGo : List Char → Nat → Nat → Nat
  | [], _, bits => bits
  | c :: rest, i, bits =>
    chunkMaskGo rest (i + 1) (if isUpperAZ c then bits ||| (1 <<< i) else bits)

/-- One checksum character: `alphabet[bits]` for a 5-character chunk. -/
def chunkChecksumChar (chunk : List Char) : Char :=
  idChecksumAlphabet.getD (chunkMaskGo chunk 0 0) 'A'

/-- The three checksum characters of the loop `for i in range(0, 15, 5)`
(salesforce_client.py:27-33); `sf_id[i:i+5]` is `(s.drop i).take 5`. -/
def idChecksum (s : List Char) : List Char :=
  [chunkChecksumChar (s.take 5),
   chunkChecksumChar ((s.drop 5).take 5),
   chunkChecksumChar ((s.drop 10).take 5)]

/-- Embedding of `_to_18_char_id` (salesforce_client.py:22-34). The Python
guard `if not sf_id or len(sf_id) != 15: return sf_id` is the single length
test here, because the empty (falsy) string also has length different
from 15. -/
def to18CharId (sfId : String) : String :=
  if sfId.length ≠ 15 then sfId else ⟨sfId.data ++ idChecksum sfId.data⟩

/-- The generic preferred display ordering of salesforce_client.py:561-570. -/
def defaultPreferredFields : List String :=
  ["Label", "QualifiedApiName", "DeveloperName", "Name", "FullName",
   "NamespacePrefix", "LastModifiedDate", "CreatedDate"]

/-- Lines 572-574: a truthy `preferred_fields` override is put first, followed
by the generic ordering minus the overridden names ([] stands for a falsy or
absent override). -/
def preferredFieldOrder (overridePreferred : List String) : List String :=
  if overridePreferred ≠ [] then
    overridePreferred ++ defaultPreferredFields.filter (fun f => f ∉ overridePreferred)
  else defaultPreferredFields

/-- Lines 592-596: walk the available fields, appending a name to both lists
when it is truthy, not yet projected, and fewer than 12 fields are projected. -/
def capLoop : List String → List String → List String → List String × List String
  | [], soql, disp => (soql, disp)
  | f :: rest, soql, disp =>
    if f ≠ "" ∧ f ∉ soql ∧ soql.length < 12 then capLoop rest (soql ++ [f]) (disp ++ [f])
    else capLoop rest soql disp

/-- The worker of `_dedupe` (lines 598-605): keep the first occurrence of each
truthy item, tracking what has been seen. -/
def dedupeGo : List String → List String → List String
  | [], _ => []
  | x :: rest, seen =>
    if x ≠ "" ∧ x ∉ seen then x :: dedupeGo rest (x :: seen)
    else dedupeGo rest seen

/-- The `_dedupe` helper of `list_metadata` (salesforce_client.py:598-605). -/
def dedupe (l : List String) : List String := dedupeGo l []

/-- Field-projection construction of `list_metadata` in fields mode
(salesforce_client.py:576-612, `use_fields_all` false): the id field, then an
unconditional `Id`, then the preferred names present among the available
fields (appended to both the query and display lists), then remaining
available fields under the 12-field cap, then `_dedupe` on both lists and a
final `Id` re-insertion at the front when it got lost. Returns
(soql_fields, display_columns). `avail` is the list of available field names
(the keys of `field_names`, in `fields` order). -/
def buildProjection (idField : String) (overridePreferred : List String)
    (avail : List String) : List String × List String :=
  let s0 : List String := if idField ≠ "" then [idField] else []
  let s1 := if "Id" ∈ s0 then s0 else s0 ++ ["Id"]
  let pref := (preferredFieldOrder overridePreferred).filter (fun f => f ∈ avail)
  let capped := capLoop avail (s1 ++ pref) pref
  let s4 := dedupe capped.1
  let d4 := dedupe capped.2
  (if "Id" ∈ s4 then s4 else "Id" :: s4, d4)

/-- Display-column derivation of `list_metadata` (salesforce_client.py:693-701):
in all-fields mode the keys of the first record minus `attributes` (or [] with
no records); otherwise `Label` first if displayed, then the other display
columns, falling back through the truthiness chain
`columns or display_columns or soql_fields`. -/
def buildColumns (useFieldsAll : Bool) (firstRecordKeys : Option (List String))
    (displayColumns soqlFields : List String) : List String :=
  if useFieldsAll then
    match firstRecordKeys with
    | some ks => ks.filter (fun k => k ≠ "attributes")
    | none => []
  else
    let c1 := (if "Label" ∈ displayColumns then ["Label"] else []) ++
              displayColumns.filter (fun c => c ≠ "Label")
    if c1 ≠ [] then c1 else if displayColumns ≠ [] then displayColumns else soqlFields

/-- One page of a query response, as consumed by the pagination loop: the
payload keys `records`, `totalSize`, `done` and the optional
`nextRecordsUrl` continuation token. -/
structure QueryPage where
  records : List PyVal
  totalSize : Nat
  done : Bool
  nextRecordsUrl : Option String

/-- The continuation loop of `list_metadata` (salesforce_client.py:681-689):
while a truthy token remains, fetch the next page (`fetch url = none` models a
`requests.HTTPError`, which breaks the loop), extend the accumulated records
and take the new token. `fuel` bounds the number of round trips; any finite
server chain is represented with fuel at least its length. -/
def accumulateRecords (fetch : String → Option QueryPage) :
    Nat → List PyVal → Option String → List PyVal
  | _, recs, none => recs
  | 0, recs, some _ => recs
  | fuel + 1, recs, some url =>
    if url = "" then recs
    else
      match fetch url with
      | none => recs
      | some p => accumulateRecords fetch fuel (recs ++ p.records) p.nextRecordsUrl

/-- Python truthiness of the optional `limit` argument (`not limit`). -/
def pyTruthyLimit : Option Nat → Bool
  | none => false
  | some n => n != 0

/-- Pagination tail of `list_metadata` (salesforce_client.py:677-692): start
from the first response page, follow continuation tokens only when no truthy
limit was given, then overwrite `records` with the accumulation and pop
`nextRecordsUrl` from the payload. All other payload fields — `done` and
`totalSize` included — are left exactly as page 1 delivered them. -/
def listMetadataPaginate (fetch : String → Option QueryPage) (fuel : Nat)
    (limit : Option Nat) (first : QueryPage) : QueryPage :=
  { first with
    records :=
      if pyTruthyLimit limit then first.records
      else accumulateRecords fetch fuel first.records first.nextRecordsUrl,
    nextRecordsUrl := none }

/-- Python `a or b` on strings. -/
def pyOrStr (a b : String) : String := if a ≠ "" then a else b

/-- `DEFAULT_METADATA_LOOKUP_FIELDS` (salesforce_client.py:223). -/
def defaultMetadataLookupFields : List String :=
  ["QualifiedApiName", "DeveloperName", "Name", "FullName"]

/-- Ordered fallback candidates of `fetch_metadata_detail`
(salesforce_client.py:735-744): with a truthy record id, first the override's
truthy `id_field` paired with the raw id, then `Id` paired with the
normalized id; with a truthy api name, every configured lookup field (or the
global default list) paired with it. -/
def buildLookupCandidates (idField : Option String) (lookupFields : Option (List String))
    (recordId apiName : String) : List (String × String) :=
  (if recordId ≠ "" then
    (match idField with
     | some f => if f ≠ "" then [(f, recordId)] else []
     | none => []) ++ [("Id", pyOrStr (to18CharId recordId) recordId)]
   else []) ++
  (if apiName ≠ "" then
    (lookupFields.getD defaultMetadataLookupFields).map (fun f => (f, apiName))
   else [])

/-- Line 751: normalize the looked-up value as an identifier when the field
is `Id`. -/
def safeLookupValue (field v : String) : String :=
  if field = "Id" then to18CharId v else v

/-- Transport oracle for detail resolution. `fetchById i` models
`rest_request('GET', base_endpoint/i)` (an `.error` is a raised
`SalesforceAPIError` with its message); `runLookup f v` models the
single-result query `SELECT Id FROM type WHERE f = 'v' LIMIT 1`, where `none`
is a `requests.HTTPError` and `some rows` the returned `records` list. -/
structure DetailEnv where
  fetchById : String → Except String Entries
  runLookup : String → String → Option (List Entries)

/-- The string value of a row's `Id` key, when it is a string (the only shape
the platform produces for `SELECT Id` rows). -/
def rowIdStr (row : Entries) : Option String :=
  match dictGet row "Id" with
  | some (.vStr s) => some s
  | _ => none

/-- The fallback loop of `fetch_metadata_detail` (salesforce_client.py:746-782).
State: remaining candidates, the `attempted` set, the queries issued so far
(in order, as raw `(field, value)` pairs), and the current `target_record`.
A candidate is skipped on a falsy value or an already-attempted pair. On a
query hit whose row has a truthy `Id`, a successful full fetch breaks the
loop; a failed full fetch keeps the bare row as the target and continues; a
hit without a truthy `Id` keeps the bare row and breaks. A transport error or
an empty hit list moves on. Returns the final target and the issued list. -/
def detailLookupLoop (env : DetailEnv) :
    List (String × String) → List (String × String) → List (String × String) →
    Option Entries → Option Entries × List (String × String)
  | [], _, issued, target => (target, issued)
  | (f, v) :: rest, attempted, issued, target =>
    if v = "" then detailLookupLoop env rest attempted issued target
    else if (f, v) ∈ attempted then detailLookupLoop env rest attempted issued target
    else
      match env.runLookup f (safeLookupValue f v) with
      | none => detailLookupLoop env rest ((f, v) :: attempted) (issued ++ [(f, v)]) target
      | some [] => detailLookupLoop env rest ((f, v) :: attempted) (issued ++ [(f, v)]) target
      | some (row :: _) =>
        match rowIdStr row with
        | some rid =>
          if rid ≠ "" then
            match env.fetchById rid with
            | .ok rec => (some rec, issued ++ [(f, v)])
            | .error _ =>
              detailLookupLoop env rest ((f, v) :: attempted) (issued ++ [(f, v)]) (some row)
          else (some row, issued ++ [(f, v)])
        | none => (some row, issued ++ [(f, v)])

/-- Error surface of detail resolution (salesforce_client.py:783-786):
either the recorded direct-fetch error is surfaced, or a generic
record-not-found error is raised. -/
inductive DetailError where
  | withCause (msg : String)
  | notFound

/-- Resolution core of `fetch_metadata_detail` (salesforce_client.py:707-786),
returning the chosen `target_record` (or the raised error) together with the
list of fallback lookup queries issued. With a truthy record id the direct
fetch by the normalized id runs first, recording a failure without raising
(lines 727-733); the fallback loop runs only when the direct fetch did not
resolve and candidates exist (line 747); with no target at the end, the
direct-fetch error is surfaced if recorded, else the generic not-found error
(lines 783-786). Enrichment (lines 794-840) only decorates a successful
payload and is outside this model. -/
def fetchMetadataDetailRun (env : DetailEnv) (idField : Option String)
    (lookupFields : Option (List String)) (recordId apiName : String) :
    Except DetailError Entries × List (String × String) :=
  let direct : Option Entries × Option String :=
    if recordId ≠ "" then
      match env.fetchById (pyOrStr (to18CharId recordId) recordId) with
      | .ok r => (some r, none)
      | .error e => (none, some e)
    else (none, none)
  let cands := buildLookupCandidates idField lookupFields recordId apiName
  let looped :=
    if direct.1.isNone && !cands.isEmpty then detailLookupLoop env cands [] [] none
    else (direct.1, [])
  (match looped.1 with
   | some r => .ok r
   | none =>
     match direct.2 with
     | some e => .error (.withCause e)
     | none => .error .notFound,
   looped.2)

/-- The resolution result of `fetch_metadata_detail` alone. -/
def fetchMetadataDetailModel (env : DetailEnv) (idField : Option String)
    (lookupFields : Option (List String)) (recordId apiName : String) :
    Except DetailError Entries :=
  (fetchMetadataDetailRun env idField lookupFields recordId apiName).1


/-- Transport transcript for the C1 pagination scenario: page 2 behind token
u1 (still carrying a token), page 3 behind token u2 (final page). -/
def c1Fetch : String → Option QueryPage := fun url =>
  if url = "u1" then some ⟨[.vStr "r2"], 3, false, some "u2"⟩
  else if url = "u2" then some ⟨[.vStr "r3"], 3, true, none⟩
  else none

/-- Transport for the C8 witness: every direct fetch raises and every lookup
query returns an empty record list. -/
def c8Env : DetailEnv where
  fetchById := fun _ => .error "boom"
  runLookup := fun _ _ => some []

/-- Transport for the C4 amended theorem's concrete scenario: no record
matches on DeveloperName, a single record matches on Name, and its full
fetch by the returned id succeeds. -/
def c4Env : DetailEnv where
  fetchById := fun i =>
    if i = "01pQUERYHIT" then .ok [("Id", .vStr "01pFULL"), ("Name", .vStr "Foo")]
    else .error "no such record"
  runLookup := fun f v =>
    if f = "DeveloperName" then some []
    else if f = "Name" ∧ v = "Foo" then some [[("Id", .vStr "01pQUERYHIT")]]
    else none

/-- Transport for the C4 counterexample: both DeveloperName and Name queries
hit, the first hit's full fetch fails, the second hit's full fetch
succeeds. -/
def c4BadEnv : DetailEnv where
  fetchById := fun i =>
    if i = "01pSECOND" then .ok [("Id", .vStr "01pSECOND"), ("Name", .vStr "Acme")]
    else .error "gone"
  runLookup := fun f v =>
    if f = "DeveloperName" ∧ v = "Acme" then some [[("Id", .vStr "01pFIRST")]]
    else if f = "Name" ∧ v = "Acme" then some [[("Id", .vStr "01pSECOND")]]
    else none

/-- Removal of every dict entry keyed `attributes` at exactly the levels the
flattening recursion visits: entries of walked dicts are filtered and their
nested dict values rewritten, while sub-query pages (the hard recursion
boundary) and non-dict values are left untouched. -/
def stripAttrEntries : Entries → Entries
  | [] => []
  | (k, v) :: rest =>
    if k == "attributes" then stripAttrEntries rest
    else
      match v with
      | .vDict sd =>
        (k, .vDict (if isSubqueryShape sd then sd else stripAttrEntries sd)) ::
          stripAttrEntries rest
      | _ => (k, v) :: stripAttrEntries rest
termination_by es => sizeOf es
decreasing_by all_goals (simp_wf <;> omega)

/-- `stripAttrEntries` lifted to a whole record, with the same top-level
dispatch as `flatten_record`. -/
def stripAttrRecord (r : PyVal) : PyVal :=
  match r with
  | .vDict d => .vDict (if isSubqueryShape d then d else stripAttrEntries d)
  | v => v

/-- Every key of every dict the flattening recursion walks (sub-query pages
excluded, since they are never recursed into) is free of the `.` separator
character. -/
def keysDotFreeEntries : Entries → Bool
  | [] => true
  | (k, v) :: rest =>
    (!decide (('.' : Char) ∈ k.data)) &&
    (match v with
     | .vDict sd => if isSubqueryShape sd then true else keysDotFreeEntries sd
     | _ => true) &&
    keysDotFreeEntries rest
termination_by es => sizeOf es
decreasing_by all_goals (simp_wf <;> omega)

/-- `keysDotFreeEntries` lifted to a whole record. -/
def keysDotFree (r : PyVal) : Bool :=
  match r with
  | .vDict d => if isSubqueryShape d then true else keysDotFreeEntries d
  | _ => true

theorem length_mk_string (l : List Char) : (⟨l⟩ : String).length = l.length := rfl

theorem chunkMaskGo_lt (chunk : List Char) (i bits : Nat) (hb : bits < 2 ^ i) :
    chunkMaskGo chunk i bits < 2 ^ (i + chunk.length) := by
  induction chunk generalizing i bits with
  | nil =>
    simpa using lt_of_lt_of_le hb (Nat.pow_le_pow_right (by norm_num) (by omega))
  | cons c rest ih =>
    simp only [chunkMaskGo]
    have hstep : (if isUpperAZ c then bits ||| 1 <<< i else bits) < 2 ^ (i + 1) := by
      have hb' : bits < 2 ^ (i + 1) :=
        lt_of_lt_of_le hb (Nat.pow_le_pow_right (by norm_num) (by omega))
      split
      · have hsh : (1 : Nat) <<< i = 2 ^ i := by simp [Nat.shiftLeft_eq]
        rw [hsh]
        exact Nat.or_lt_two_pow hb' (Nat.pow_lt_pow_right (by norm_num) (by omega))
      · exact hb'
    have := ih (i + 1) (if isUpperAZ c then bits ||| 1 <<< i else bits) hstep
    have heq : i + 1 + rest.length = i + (rest.length + 1) := by omega
    simpa [heq] using this

theorem chunkMaskGo_testBit (chunk : List Char) (i bits j : Nat) :
    (chunkMaskGo chunk i bits).testBit j =
      (bits.testBit j ||
        (decide (i ≤ j) && decide (j < i + chunk.length) && isUpperAZ (chunk.getD (j - i) ' '))) := by
  induction chunk generalizing i bits with
  | nil =>
    simp only [chunkMaskGo, List.length_nil, Nat.add_zero]
    by_cases h : i ≤ j
    · simp [h, (by omega : ¬ j < i)]
    · simp [h]
  | cons c rest ih =>
    simp only [chunkMaskGo, List.length_cons]
    rw [ih]
    have hsh : (1 : Nat) <<< i = 2 ^ i := by simp [Nat.shiftLeft_eq]
    rcases Nat.lt_trichotomy j i with hji | hji | hji
    · have e1 : ¬ i ≤ j := by omega
      have e2 : ¬ i + 1 ≤ j := by omega
      split
      · rw [Nat.testBit_or, hsh, Nat.testBit_two_pow_of_ne (by omega : i ≠ j)]
        simp [e1, e2]
      · simp [e1, e2]
    · subst hji
      have hgd : (j : Nat) - j = 0 := by omega
      split
      case isTrue hU =>
        rw [Nat.testBit_or, hsh, Nat.testBit_two_pow_self]
        simp [(by omega : ¬ j + 1 ≤ j), hgd, hU, (by omega : j < j + (rest.length + 1))]
      case isFalse hU =>
        rw [Bool.not_eq_true] at hU
        simp [(by omega : ¬ j + 1 ≤ j), hgd, hU]
    · have e1 : i ≤ j := by omega
      have e2 : i + 1 ≤ j := by omega
      have harith : i + 1 + rest.length = i + (rest.length + 1) := by omega
      have hsub : j - i = (j - (i + 1)) + 1 := by omega
      rw [harith, hsub]
      split
      · rw [Nat.testBit_or, hsh, Nat.testBit_two_pow_of_ne (by omega : i ≠ j)]
        simp [e1, e2]
      · simp [e1, e2]

theorem chunkMask_testBit (chunk : List Char) (j : Nat) :
    (chunkMaskGo chunk 0 0).testBit j =
      (decide (j < chunk.length) && isUpperAZ (chunk.getD j ' ')) := by
  simpa using chunkMaskGo_testBit chunk 0 0 j

theorem chunkMask_lt_32 (chunk : List Char) (h : chunk.length ≤ 5) :
    chunkMaskGo chunk 0 0 < 32 := by
  have := chunkMaskGo_lt chunk 0 0 (by norm_num)
  calc chunkMaskGo chunk 0 0 < 2 ^ (0 + chunk.length) := this
    _ ≤ 2 ^ 5 := Nat.pow_le_pow_right (by norm_num) (by omega)
    _ = 32 := by norm_num

/-- C3: for every 15-character input string, the identifier normalizer returns
the input extended by exactly 3 checksum characters: the 15 characters are
split into three 5-character chunks `(s.drop (5*j)).take 5`; each chunk yields
a 5-bit mask `m` whose bit `i` is set iff the chunk's `i`-th character is an
uppercase ASCII letter; the checksum character for the chunk is the fixed
32-symbol alphabet indexed at `m`. The function is total, so there are no
error conditions, and the mask always stays below 32 so the alphabet indexing
never falls back to its default. -/
theorem c3_fifteen_char_checksum (s : String) (h : s.length = 15) :
    (to18CharId s).data = s.data ++ idChecksum s.data ∧
    (to18CharId s).length = 18 ∧
    ∀ j, j < 3 →
      ∃ m : Nat, m < 32 ∧
        (∀ i, i < 5 → m.testBit i = isUpperAZ (((s.data.drop (5 * j)).take 5).getD i ' ')) ∧
        (idChecksum s.data).getD j ' ' = idChecksumAlphabet.getD m 'A' := by
  have hdata : s.data.length = 15 := h
  have hval : to18CharId s = ⟨s.data ++ idChecksum s.data⟩ := by
    simp [to18CharId, h]
  refine ⟨by rw [hval], ?_, ?_⟩
  · rw [hval, length_mk_string, List.length_append, hdata]
    rfl
  · intro j hj
    refine ⟨chunkMaskGo ((s.data.drop (5 * j)).take 5) 0 0, ?_, ?_, ?_⟩
    · exact chunkMask_lt_32 _ (by simp)
    · intro i hi
      have hlen : ((s.data.drop (5 * j)).take 5).length = 5 := by
        simp [hdata]
        omega
      rw [chunkMask_testBit, hlen]
      simp [hi]
    · interval_cases j <;>
        simp [idChecksum, chunkChecksumChar]

/-- C3 witness: the theorem applied to the concrete 15-character identifier
001A0000006Vm9r. -/
theorem c3_fifteen_char_checksum_witness :
    (to18CharId "001A0000006Vm9r").data =
        "001A0000006Vm9r".data ++ idChecksum "001A0000006Vm9r".data ∧
    (to18CharId "001A0000006Vm9r").length = 18 ∧
    ∀ j, j < 3 →
      ∃ m : Nat, m < 32 ∧
        (∀ i, i < 5 →
          m.testBit i =
            isUpperAZ ((("001A0000006Vm9r".data.drop (5 * j)).take 5).getD i ' ')) ∧
        (idChecksum "001A0000006Vm9r".data).getD j ' ' = idChecksumAlphabet.getD m 'A' :=
  c3_fifteen_char_checksum "001A0000006Vm9r" (by decide)

/-- C7: the identifier normalizer is the identity on every string whose length
is not 15, is deterministic (it is a pure function, so equal inputs give equal
outputs), and is idempotent on every input — in particular an 18-character
output fed back in is returned unchanged, because 18 is not 15. -/
theorem c7_normalize_identity_idempotent :
    (∀ s : String, s.length ≠ 15 → to18CharId s = s) ∧
    (∀ s t : String, s = t → to18CharId s = to18CharId t) ∧
    (∀ s : String, to18CharId (to18CharId s) = to18CharId s) := by
  have hid : ∀ s : String, s.length ≠ 15 → to18CharId s = s := by
    intro s h
    simp [to18CharId, h]
  refine ⟨hid, fun s t h => by rw [h], fun s => ?_⟩
  by_cases h : s.length = 15
  · have h18 : (to18CharId s).length = 18 := by
      have : to18CharId s = ⟨s.data ++ idChecksum s.data⟩ := by simp [to18CharId, h]
      rw [this, length_mk_string, List.length_append]
      have hdata : s.data.length = 15 := h
      rw [hdata]
      rfl
    exact hid _ (by omega)
  · rw [hid s h, hid s h]

/-- C7 witness: identity on a short string, and idempotence at a concrete
15-character identifier. -/
theorem c7_normalize_identity_idempotent_witness :
    to18CharId "abc" = "abc" ∧
    to18CharId (to18CharId "001A0000006Vm9r") = to18CharId "001A0000006Vm9r" :=
  ⟨c7_normalize_identity_idempotent.1 "abc" (by decide),
   c7_normalize_identity_idempotent.2.2 "001A0000006Vm9r"⟩

/-- C1 (code bug): with a mocked transport returning 3 pages, pages 1 and 2
carrying a continuation token and page 3 not (so page 1 reports done = false,
per the platform invariant that done holds iff the token is absent), an
unlimited list call returns the concatenation of all 3 pages' records and
removes `nextRecordsUrl` — but `done` keeps page 1's value `false`, because
the loop at salesforce_client.py:681-692 never updates `payload['done']`. The
claim (and spec §8) demand `done == true` on the returned page, and the
returned page violates the spec §3 invariant (token absent yet done false);
the sibling complete-list paths (salesforce_client.py:1195, 1295) do set
`done: True`. Generally, the returned page always keeps the first page's
`done` verbatim while always dropping the token, as the second conjunct
states for every transport, fuel and first page. -/
theorem c1_pagination_keeps_stale_done :
    listMetadataPaginate c1Fetch 5 none ⟨[.vStr "r1"], 3, false, some "u1"⟩ =
      ⟨[.vStr "r1", .vStr "r2", .vStr "r3"], 3, false, none⟩ ∧
    ∀ (fetch : String → Option QueryPage) (fuel : Nat) (first : QueryPage),
      (listMetadataPaginate fetch fuel none first).done = first.done ∧
      (listMetadataPaginate fetch fuel none first).totalSize = first.totalSize ∧
      (listMetadataPaginate fetch fuel none first).nextRecordsUrl = none :=
  ⟨rfl, fun _ _ _ => ⟨rfl, rfl, rfl⟩⟩

theorem buildLookupCandidates_ne_nil (idField : Option String)
    (lookupFields : Option (List String)) {recordId : String} (apiName : String)
    (h : recordId ≠ "") :
    buildLookupCandidates idField lookupFields recordId apiName ≠ [] := by
  simp only [buildLookupCandidates, if_pos h]
  intro heq
  rcases List.append_eq_nil.1 heq with ⟨h1, _⟩
  rcases List.append_eq_nil.1 h1 with ⟨_, h2⟩
  simp at h2

/-- C8: when detail resolution exhausts the direct fetch and every fallback
candidate without a target record, `fetch_metadata_detail` raises: with both
the identifier and the name inputs absent (falsy) it raises the generic
not-found error; with a failed direct fetch it surfaces the recorded
direct-fetch error; with no direct fetch attempted it raises the generic
not-found error. The model's result type makes a null or empty success
unrepresentable — an unresolved run is always an `.error`. -/
theorem c8_detail_exhaustion_raises (env : DetailEnv) (idField : Option String)
    (lookupFields : Option (List String)) (recordId apiName : String) :
    (recordId = "" → apiName = "" →
      fetchMetadataDetailModel env idField lookupFields recordId apiName =
        .error .notFound) ∧
    (∀ m : String,
      recordId ≠ "" →
      env.fetchById (pyOrStr (to18CharId recordId) recordId) = .error m →
      (detailLookupLoop env (buildLookupCandidates idField lookupFields recordId apiName)
        [] [] none).1 = none →
      fetchMetadataDetailModel env idField lookupFields recordId apiName =
        .error (.withCause m)) ∧
    (recordId = "" →
      (detailLookupLoop env (buildLookupCandidates idField lookupFields recordId apiName)
        [] [] none).1 = none →
      fetchMetadataDetailModel env idField lookupFields recordId apiName =
        .error .notFound) := by
  refine ⟨?_, ?_, ?_⟩
  · intro h1 h2
    subst h1; subst h2
    simp [fetchMetadataDetailModel, fetchMetadataDetailRun, buildLookupCandidates]
  · intro m h hfetch hloop
    have hc := buildLookupCandidates_ne_nil idField lookupFields apiName h
    simp only [fetchMetadataDetailModel, fetchMetadataDetailRun, if_pos h, hfetch]
    simp only [Option.isNone_none, Bool.true_and]
    rw [if_pos (by simpa [List.isEmpty_iff] using hc)]
    simp [hloop]
  · intro h hloop
    subst h
    by_cases hc : buildLookupCandidates idField lookupFields "" apiName = []
    · simp [fetchMetadataDetailModel, fetchMetadataDetailRun, hc]
    · simp only [fetchMetadataDetailModel, fetchMetadataDetailRun]
      rw [if_neg (by simp : ¬ ("" : String) ≠ "")]
      rw [if_pos (by simp [List.isEmpty_iff, hc])]
      simp [hloop]

/-- C8 witness: the exhaustion theorem applied to a transport that fails the
direct fetch and matches no candidate, and to the both-inputs-absent case. -/
theorem c8_detail_exhaustion_raises_witness :
    fetchMetadataDetailModel c8Env none none "001A0000006Vm9r" "" =
      .error (.withCause "boom") ∧
    fetchMetadataDetailModel c8Env none none "" "" = .error .notFound :=
  ⟨(c8_detail_exhaustion_raises c8Env none none "001A0000006Vm9r" "").2.1 "boom"
      (by decide) rfl rfl,
   (c8_detail_exhaustion_raises c8Env none none "" "").1 rfl rfl⟩

theorem detailLookupLoop_issued_spec (env : DetailEnv) (cands : List (String × String)) :
    ∀ (attempted issued : List (String × String)) (target : Option Entries),
      (∀ p ∈ issued, p ∈ attempted) → issued.Nodup →
      ∃ tail, (detailLookupLoop env cands attempted issued target).2 = issued ++ tail ∧
        tail.Sublist cands ∧ (issued ++ tail).Nodup ∧ ∀ p ∈ tail, p.2 ≠ "" := by
  induction cands with
  | nil =>
    intro att iss t hatt hnd
    exact ⟨[], by simp [detailLookupLoop], by simp, by simpa using hnd, by simp⟩
  | cons c rest ih =>
    intro att iss t hatt hnd
    obtain ⟨f, v⟩ := c
    rw [detailLookupLoop]
    by_cases hv : v = ""
    · rw [if_pos hv]
      obtain ⟨tail, h1, h2, h3, h4⟩ := ih att iss t hatt hnd
      exact ⟨tail, h1, h2.cons _, h3, h4⟩
    · rw [if_neg hv]
      by_cases hmem : (f, v) ∈ att
      · rw [if_pos hmem]
        obtain ⟨tail, h1, h2, h3, h4⟩ := ih att iss t hatt hnd
        exact ⟨tail, h1, h2.cons _, h3, h4⟩
      · rw [if_neg hmem]
        have hnotin : (f, v) ∉ iss := fun hin => hmem (hatt _ hin)
        have hnd' : (iss ++ [(f, v)]).Nodup := by
          rw [List.nodup_append]
          refine ⟨hnd, List.nodup_singleton _, ?_⟩
          intro a ha hb
          simp only [List.mem_singleton] at hb
          subst hb
          exact hnotin ha
        have hatt' : ∀ p ∈ iss ++ [(f, v)], p ∈ (f, v) :: att := by
          intro p hp
          rcases List.mem_append.1 hp with hp | hp
          · exact List.mem_cons_of_mem _ (hatt _ hp)
          · simp only [List.mem_singleton] at hp
            simp [hp]
        have hrec : ∀ t' : Option Entries,
            ∃ tail,
              (detailLookupLoop env rest ((f, v) :: att) (iss ++ [(f, v)]) t').2 =
                iss ++ tail ∧
              tail.Sublist ((f, v) :: rest) ∧ (iss ++ tail).Nodup ∧
              ∀ p ∈ tail, p.2 ≠ "" := by
          intro t'
          obtain ⟨tail, h1, h2, h3, h4⟩ := ih ((f, v) :: att) (iss ++ [(f, v)]) t' hatt' hnd'
          refine ⟨(f, v) :: tail, ?_, List.Sublist.cons₂ _ h2, ?_, ?_⟩
          · rw [h1, List.append_assoc]
            rfl
          · rw [List.append_assoc] at h3
            exact h3
          · intro p hp
            rcases List.mem_cons.1 hp with rfl | hp
            · exact hv
            · exact h4 p hp
        have hbrk :
            ∃ tail, (iss ++ [(f, v)] : List (String × String)) = iss ++ tail ∧
              tail.Sublist ((f, v) :: rest) ∧ (iss ++ tail).Nodup ∧
              ∀ p ∈ tail, p.2 ≠ "" :=
          ⟨[(f, v)], rfl, by simp, hnd', by simpa using hv⟩
        cases hrun : env.runLookup f (safeLookupValue f v) with
        | none => exact hrec t
        | some rows =>
          cases rows with
          | nil => exact hrec t
          | cons row more =>
            cases hrid : rowIdStr row with
            | some rid =>
              dsimp only
              rw [hrid]
              dsimp only
              by_cases hr : rid ≠ ""
              · rw [if_pos hr]
                cases hfetch : env.fetchById rid with
                | ok rec => exact hbrk
                | error e => exact hrec (some row)
              · rw [if_neg hr]
                exact hbrk
            | none =>
              dsimp only
              rw [hrid]
              dsimp only
              exact hbrk

/-- C4 (amended): without a successful direct fetch, the fallback lookup
queries issued by `fetch_metadata_detail` are exactly an in-order selection
of the built candidate list — the strategy's id field with the raw id, then
`Id` with the normalized id, then each configured lookup field (or the global
default list) with the api name — with empty values and duplicate
`(field, value)` pairs skipped (first conjunct: the issued list is an
order-preserving sublist of the candidates, duplicate-free, with no empty
value). Iteration stops at the first candidate that fully succeeds: a hit
whose full fetch by the returned id succeeds breaks the loop immediately,
with no dependence on the remaining candidates (second conjunct). When a
hit's full fetch fails, however, the bare row is only kept as a provisional
target and iteration continues (see the counterexample). Third conjunct: for
a type with lookup fields [DeveloperName, Name] and an api name matching only
on Name, DeveloperName is attempted first and Name second. -/
theorem c4_detail_fallback_order (env : DetailEnv) (idField : Option String)
    (lookupFields : Option (List String)) (recordId apiName : String) :
    ((fetchMetadataDetailRun env idField lookupFields recordId apiName).2.Sublist
        (buildLookupCandidates idField lookupFields recordId apiName) ∧
      (fetchMetadataDetailRun env idField lookupFields recordId apiName).2.Nodup ∧
      ∀ p ∈ (fetchMetadataDetailRun env idField lookupFields recordId apiName).2,
        p.2 ≠ "") ∧
    (∀ (f v : String) (rest attempted issued : List (String × String))
        (target : Option Entries) (row : Entries) (more : List Entries)
        (rid : String) (rec : Entries),
      v ≠ "" → (f, v) ∉ attempted →
      env.runLookup f (safeLookupValue f v) = some (row :: more) →
      rowIdStr row = some rid → rid ≠ "" → env.fetchById rid = .ok rec →
      detailLookupLoop env ((f, v) :: rest) attempted issued target =
        (some rec, issued ++ [(f, v)])) ∧
    fetchMetadataDetailRun c4Env none (some ["DeveloperName", "Name"]) "" "Foo" =
      (.ok [("Id", .vStr "01pFULL"), ("Name", .vStr "Foo")],
       [("DeveloperName", "Foo"), ("Name", "Foo")]) := by
  refine ⟨?_, ?_, rfl⟩
  · simp only [fetchMetadataDetailRun]
    split <;> split
    all_goals
      first
        | (obtain ⟨tail, h1, h2, h3, h4⟩ :=
            detailLookupLoop_issued_spec env
              (buildLookupCandidates idField lookupFields recordId apiName) [] [] none
              (by simp) (by simp)
           simp only [List.nil_append] at h1 h3
           rw [h1]
           exact ⟨h2, h3, h4⟩)
        | simp
  · intro f v rest attempted issued target row more rid rec hv hmem hrun hrid hr hfetch
    rw [detailLookupLoop, if_neg hv, if_neg hmem, hrun]
    dsimp only
    rw [hrid]
    dsimp only
    rw [if_pos hr, hfetch]

/-- C4 counterexample: the claim states that iteration stops at the first
candidate that succeeds, with no further lookup queries issued after a
success. Here the first candidate (DeveloperName, Acme) succeeds — its query
hits and, the full fetch by the returned id failing, the bare hit row becomes
the target record, exactly the fallback the claim describes — yet the code
(salesforce_client.py:774-775 has no break) goes on to issue the second
lookup query (Name, Acme), whose result then replaces the first candidate's:
the run returns the second candidate's fully fetched record and the issued
list holds both queries. -/
theorem c4_detail_fallback_counterexample :
    fetchMetadataDetailRun c4BadEnv none (some ["DeveloperName", "Name"]) "" "Acme" =
      (.ok [("Id", .vStr "01pSECOND"), ("Name", .vStr "Acme")],
       [("DeveloperName", "Acme"), ("Name", "Acme")]) := rfl

/-- C4 witness: the amended theorem's stop-at-full-success conjunct applied to
a concrete candidate in front of a never-consulted remainder. -/
theorem c4_detail_fallback_order_witness :
    detailLookupLoop c4Env [("Name", "Foo"), ("Extra", "Zzz")] [] [] none =
      (some [("Id", .vStr "01pFULL"), ("Name", .vStr "Foo")], [("Name", "Foo")]) :=
  (c4_detail_fallback_order c4Env none (some ["DeveloperName", "Name"]) "" "Foo").2.1
    "Name" "Foo" [("Extra", "Zzz")] [] [] none [("Id", .vStr "01pQUERYHIT")] []
    "01pQUERYHIT" [("Id", .vStr "01pFULL"), ("Name", .vStr "Foo")]
    (by decide) (by simp) rfl rfl (by decide) rfl

theorem capLoop_length_le (avail soql disp : List String) (h : soql.length ≤ 12) :
    (capLoop avail soql disp).1.length ≤ 12 := by
  induction avail generalizing soql disp with
  | nil => simpa [capLoop] using h
  | cons f rest ih =>
    rw [capLoop]
    split
    case isTrue hc => exact ih _ _ (by simp; omega)
    case isFalse hc => exact ih _ _ h

theorem capLoop_mem {x : String} {avail soql disp : List String} (h : x ∈ soql) :
    x ∈ (capLoop avail soql disp).1 := by
  induction avail generalizing soql disp with
  | nil => simpa [capLoop] using h
  | cons f rest ih =>
    rw [capLoop]
    split
    · exact ih (by simp [h])
    · exact ih h

theorem dedupeGo_spec (l : List String) (seen : List String) :
    (dedupeGo l seen).Nodup ∧ ∀ x ∈ dedupeGo l seen, x ∉ seen := by
  induction l generalizing seen with
  | nil => simp [dedupeGo]
  | cons y rest ih =>
    rw [dedupeGo]
    split
    case isTrue hc =>
      obtain ⟨hnd, hout⟩ := ih (y :: seen)
      refine ⟨List.nodup_cons.2 ⟨fun hmem => ?_, hnd⟩, ?_⟩
      · exact hout y hmem (by simp)
      · intro x hx
        rcases List.mem_cons.1 hx with rfl | hx
        · exact hc.2
        · intro hxs
          exact hout x hx (by simp [hxs])
    case isFalse hc => exact ih seen

theorem dedupe_nodup (l : List String) : (dedupe l).Nodup := (dedupeGo_spec l []).1

theorem dedupeGo_mem {x : String} {l seen : List String} (h : x ∈ l) (hne : x ≠ "")
    (hs : x ∉ seen) : x ∈ dedupeGo l seen := by
  induction l generalizing seen with
  | nil => simp at h
  | cons y rest ih =>
    rw [dedupeGo]
    split
    case isTrue hc =>
      rcases List.mem_cons.1 h with rfl | h
      · simp
      · by_cases hxy : x = y
        · simp [hxy]
        · exact List.mem_cons.2 (Or.inr (ih h (by simp [hxy, hs])))
    case isFalse hc =>
      rcases List.mem_cons.1 h with rfl | h
      · rcases not_and_or.1 hc with hc | hc
        · exact absurd (by simpa using hc) hne
        · exact absurd (not_not.1 hc) hs
      · exact ih h hs

theorem dedupe_mem {x : String} {l : List String} (h : x ∈ l) (hne : x ≠ "") :
    x ∈ dedupe l :=
  dedupeGo_mem h hne (by simp)

theorem dedupeGo_length_le (l seen : List String) :
    (dedupeGo l seen).length ≤ l.length := by
  induction l generalizing seen with
  | nil => simp [dedupeGo]
  | cons y rest ih =>
    rw [dedupeGo]
    split
    · simpa using Nat.succ_le_succ (ih (y :: seen))
    · exact le_trans (ih seen) (by simp)

theorem dedupe_length_le (l : List String) : (dedupe l).length ≤ l.length :=
  dedupeGo_length_le l []

/-- C5: for a type with no registry entry (so `id_field` defaults to `Id` and
no `preferred_fields` override exists) and more than 12 available fields, the
projected field list built by `list_metadata` in fields mode has length at
most 12 and contains `Id`. The preferred block contributes at most
1 + 8 = 9 names before the capped walk, the capped walk never grows the list
past 12, and `_dedupe` plus the final `Id` re-insertion only shrink or keep
it, with `Id` surviving throughout. -/
theorem c5_field_projection_cap (avail : List String) (h : 12 < avail.length) :
    (buildProjection "Id" [] avail).1.length ≤ 12 ∧
    "Id" ∈ (buildProjection "Id" [] avail).1 := by
  unfold buildProjection
  have hs0 : (if ("Id" : String) ≠ "" then (["Id"] : List String) else []) = ["Id"] := by
    simp
  simp only [hs0, preferredFieldOrder, if_neg (by simp : ¬ (([] : List String) ≠ []))]
  have hinit : ((if ("Id" : String) ∈ (["Id"] : List String) then (["Id"] : List String)
      else ["Id"] ++ ["Id"]) ++ defaultPreferredFields.filter (fun f => f ∈ avail)).length ≤ 12 := by
    have : (defaultPreferredFields.filter (fun f => f ∈ avail)).length ≤
        defaultPreferredFields.length := List.length_filter_le _ _
    simp only [if_pos (by simp : ("Id" : String) ∈ (["Id"] : List String))]
    have h8 : defaultPreferredFields.length = 8 := rfl
    simp at this ⊢
    omega
  have hcap := capLoop_length_le avail _
    (defaultPreferredFields.filter (fun f => f ∈ avail)) hinit
  have hmem : ("Id" : String) ∈ (capLoop avail
      ((if ("Id" : String) ∈ (["Id"] : List String) then (["Id"] : List String)
        else ["Id"] ++ ["Id"]) ++ defaultPreferredFields.filter (fun f => f ∈ avail))
      (defaultPreferredFields.filter (fun f => f ∈ avail))).1 := by
    apply capLoop_mem
    simp
  have hmem4 : ("Id" : String) ∈ dedupe (capLoop avail
      ((if ("Id" : String) ∈ (["Id"] : List String) then (["Id"] : List String)
        else ["Id"] ++ ["Id"]) ++ defaultPreferredFields.filter (fun f => f ∈ avail))
      (defaultPreferredFields.filter (fun f => f ∈ avail))).1 :=
    dedupe_mem hmem (by simp)
  refine ⟨?_, ?_⟩
  · simp only [if_pos hmem4]
    exact le_trans (dedupe_length_le _) hcap
  · simp only [if_pos hmem4]
    exact hmem4

theorem buildProjection_fst_nodup (idField : String) (overridePreferred avail : List String) :
    (buildProjection idField overridePreferred avail).1.Nodup := by
  have hins : ∀ l : List String, l.Nodup → (if "Id" ∈ l then l else "Id" :: l).Nodup := by
    intro l hl
    split
    · exact hl
    case isFalse hmem => exact List.nodup_cons.2 ⟨hmem, hl⟩
  unfold buildProjection
  dsimp only
  exact hins _ (dedupe_nodup _)

theorem buildProjection_snd_nodup (idField : String) (overridePreferred avail : List String) :
    (buildProjection idField overridePreferred avail).2.Nodup := by
  unfold buildProjection
  dsimp only
  exact dedupe_nodup _

theorem buildColumns_fields_nodup {d s : List String} (hd : d.Nodup) (hs : s.Nodup) :
    (buildColumns false none d s).Nodup := by
  unfold buildColumns
  simp only [Bool.false_eq_true, if_neg (by trivial : ¬ False)]
  have hfil : (d.filter (fun c => c ≠ "Label")).Nodup := hd.filter _
  split
  case isTrue hL =>
    split
    case isTrue =>
      refine List.nodup_cons.2 ⟨?_, hfil⟩
      intro hmem
      simpa using (List.mem_filter.1 hmem).2
    case isFalse =>
      split
      · exact hd
      · exact hs
  case isFalse hL =>
    simp only [List.nil_append]
    split
    · exact hfil
    · split
      · exact hd
      · exact hs

/-- C9: the projected field list and the display column list built by
`list_metadata` never contain a repeated field name (both pass through
`_dedupe`, which keeps first occurrences, and the final `Id` re-insertion
only fires when `Id` is absent), and the derived `columns` list is also
repetition-free in both modes: after the Label-first reordering in fields
mode (with its truthiness fallbacks), and as the `attributes`-stripped keys
of the first record in all-fields mode, where the keys of a Python dict are
pairwise distinct (hypothesis `hks`). -/
theorem c9_no_repeated_field_names (idField : String) (overridePreferred avail ks : List String)
    (hks : ks.Nodup) :
    (buildProjection idField overridePreferred avail).1.Nodup ∧
    (buildProjection idField overridePreferred avail).2.Nodup ∧
    (buildColumns false none (buildProjection idField overridePreferred avail).2
        (buildProjection idField overridePreferred avail).1).Nodup ∧
    (buildColumns true (some ks) (buildProjection idField overridePreferred avail).2
        (buildProjection idField overridePreferred avail).1).Nodup := by
  refine ⟨buildProjection_fst_nodup _ _ _, buildProjection_snd_nodup _ _ _, ?_, ?_⟩
  · exact buildColumns_fields_nodup (buildProjection_snd_nodup _ _ _)
      (buildProjection_fst_nodup _ _ _)
  · unfold buildColumns
    simpa using hks.filter _

/-- C9 witness: a CustomObject-like configuration with duplicated and
overlapping inputs, and a concrete nodup first-record key list. -/
theorem c9_no_repeated_field_names_witness :
    (buildProjection "DurableId" ["Label", "QualifiedApiName"]
        ["DurableId", "Label", "Label", "QualifiedApiName", "NamespacePrefix"]).1.Nodup ∧
    (buildProjection "DurableId" ["Label", "QualifiedApiName"]
        ["DurableId", "Label", "Label", "QualifiedApiName", "NamespacePrefix"]).2.Nodup ∧
    (buildColumns false none
        (buildProjection "DurableId" ["Label", "QualifiedApiName"]
          ["DurableId", "Label", "Label", "QualifiedApiName", "NamespacePrefix"]).2
        (buildProjection "DurableId" ["Label", "QualifiedApiName"]
          ["DurableId", "Label", "Label", "QualifiedApiName", "NamespacePrefix"]).1).Nodup ∧
    (buildColumns true (some ["attributes", "Id", "Label"])
        (buildProjection "DurableId" ["Label", "QualifiedApiName"]
          ["DurableId", "Label", "Label", "QualifiedApiName", "NamespacePrefix"]).2
        (buildProjection "DurableId" ["Label", "QualifiedApiName"]
          ["DurableId", "Label", "Label", "QualifiedApiName", "NamespacePrefix"]).1).Nodup :=
  c9_no_repeated_field_names "DurableId" ["Label", "QualifiedApiName"]
    ["DurableId", "Label", "Label", "QualifiedApiName", "NamespacePrefix"]
    ["attributes", "Id", "Label"] (by decide)

/-- C5 witness: a type with 13 available fields and no override. -/
theorem c5_field_projection_cap_witness :
    (buildProjection "Id" [] ["F1", "F2", "F3", "F4", "F5", "F6", "F7", "F8", "F9",
        "F10", "F11", "F12", "F13"]).1.length ≤ 12 ∧
    "Id" ∈ (buildProjection "Id" [] ["F1", "F2", "F3", "F4", "F5", "F6", "F7", "F8",
        "F9", "F10", "F11", "F12", "F13"]).1 :=
  c5_field_projection_cap _ (by decide)

theorem forall_keys_dinsert (P : String → Prop) {d : Entries} {k : String} {v : PyVal}
    (hd : ∀ p ∈ d, P p.1) (hk : P k) : ∀ p ∈ dinsert d k v, P p.1 := by
  intro p hp
  unfold dinsert at hp
  split at hp
  · rcases List.mem_map.1 hp with ⟨q, hq, hpq⟩
    by_cases hqk : q.1 == k
    · rw [if_pos hqk] at hpq
      rw [← hpq]
      exact hk
    · rw [if_neg hqk] at hpq
      rw [← hpq]
      exact hd q hq
  · rcases List.mem_append.1 hp with hp | hp
    · exact hd p hp
    · simp only [List.mem_singleton] at hp
      rw [hp]
      exact hk

theorem containsKey_dinsert_self (d : Entries) (k : String) (v : PyVal) :
    containsKey (dinsert d k v) k = true := by
  unfold dinsert
  split
  case isTrue hc =>
    unfold containsKey at hc ⊢
    rcases List.any_eq_true.1 hc with ⟨p, hp, hpk⟩
    exact List.any_eq_true.2 ⟨(k, v), by
      refine ⟨List.mem_map.2 ⟨p, hp, ?_⟩, by simp⟩
      rw [if_pos hpk]⟩
  · unfold containsKey
    refine List.any_eq_true.2 ⟨(k, v), List.mem_append.2 (Or.inr (by simp)), by simp⟩

theorem containsKey_dinsert_of {d : Entries} {k' : String} (k : String) (v : PyVal)
    (h : containsKey d k' = true) : containsKey (dinsert d k v) k' = true := by
  unfold dinsert
  unfold containsKey at h
  rcases List.any_eq_true.1 h with ⟨p, hp, hpk⟩
  split
  case isTrue hc =>
    unfold containsKey
    by_cases hpk2 : p.1 == k
    · refine List.any_eq_true.2 ⟨(k, v), List.mem_map.2 ⟨p, hp, by rw [if_pos hpk2]⟩, ?_⟩
      have h1 : p.1 = k := by simpa using hpk2
      have h2 : p.1 = k' := by simpa using hpk
      simp [← h1, h2]
    · exact List.any_eq_true.2 ⟨p, List.mem_map.2 ⟨p, hp, by rw [if_neg hpk2]⟩, hpk⟩
  · exact List.any_eq_true.2 ⟨p, List.mem_append.2 (Or.inl hp), hpk⟩

theorem getLast?_append_ne {α : Type} (l1 l2 : List α) (h : l2 ≠ []) :
    (l1 ++ l2).getLast? = l2.getLast? := by
  rw [List.getLast?_append]
  cases hl : l2.getLast? with
  | none => exact absurd (List.getLast?_eq_none_iff.1 hl) h
  | some x => rfl

theorem ends_dot_no_attr_suffix {p : List Char} (h : ∃ q, p = q ++ ['.']) :
    ¬ ∃ t, p = t ++ '.' :: "attributes".data := by
  obtain ⟨q, hq⟩ := h
  rintro ⟨t, ht⟩
  have heq : q ++ ['.'] = t ++ ('.' :: "attributes".data) := by rw [← hq, ht]
  have hL := congrArg List.getLast? heq
  rw [List.getLast?_concat, getLast?_append_ne _ _ (by simp)] at hL
  have hS : ('.' :: "attributes".data).getLast? = some 's' := rfl
  rw [hS] at hL
  simp at hL

theorem no_dot_attr_suffix {p k : List Char}
    (hp : p = [] ∨ ∃ q, p = q ++ ['.'])
    (hk : ('.' : Char) ∉ k) (hne : k ≠ "attributes".data) :
    ¬ ∃ t, p ++ k = t ++ '.' :: "attributes".data := by
  rintro ⟨t, ht⟩
  rcases List.append_eq_append_iff.1 ht with ⟨a, _, ha2⟩ | ⟨c, hc1, hc2⟩
  · exact hk (by rw [ha2]; exact List.mem_append.2 (Or.inr (List.mem_cons_self _ _)))
  · cases c with
    | nil =>
      simp only [List.nil_append] at hc2
      exact hk (by rw [← hc2]; exact List.mem_cons_self _ _)
    | cons c0 c' =>
      have hc2' : '.' :: "attributes".data = c0 :: (c' ++ k) := hc2
      injection hc2' with hc0 hrest
      cases c' with
      | nil =>
        simp only [List.nil_append] at hrest
        exact hne hrest.symm
      | cons c1 c'' =>
        rcases hp with rfl | ⟨q, hq⟩
        · simp at hc1
        · have heq : q ++ ['.'] = t ++ (c0 :: c1 :: c'') := by rw [← hq, hc1]
          have hL := congrArg List.getLast? heq
          rw [List.getLast?_concat, getLast?_append_ne _ _ (by simp)] at hL
          have hL2 : (c0 :: c1 :: c'' : List Char).getLast? = (c1 :: c'').getLast? :=
            getLast?_append_ne [c0] (c1 :: c'') (by simp)
          rw [hL2] at hL
          have hmem : ('.' : Char) ∈ c1 :: c'' := List.mem_of_mem_getLast? hL.symm
          have hsub : ('.' : Char) ∈ "attributes".data := by
            rw [hrest]
            exact List.mem_append.2 (Or.inl hmem)
          exact absurd hsub (by decide)

theorem data_ne_of_ne {a b : String} (h : a ≠ b) : a.data ≠ b.data := by
  intro hd
  apply h
  cases a with
  | mk l =>
    cases b with
    | mk m =>
      have hlm : l = m := by simpa using hd
      rw [hlm]

theorem flattenEntries_nil (sep : String) (pfx : String) (acc : Entries) :
    flattenEntries sep [] pfx acc = acc := by
  rw [flattenEntries.eq_def]

theorem flattenEntries_cons (sep k : String) (v : PyVal) (rest : Entries)
    (pfx : String) (acc : Entries) :
    flattenEntries sep ((k, v) :: rest) pfx acc =
      if k == "attributes" then flattenEntries sep rest pfx acc
      else
        match v with
        | .vDict sd =>
          if isSubqueryShape sd then
            flattenEntries sep rest pfx (dinsert acc (pfx ++ k ++ sep) (subqueryMarker sd))
          else flattenEntries sep rest pfx (flattenEntries sep sd (pfx ++ k ++ sep) acc)
        | _ => flattenEntries sep rest pfx (dinsert acc (pfx ++ k) v) := by
  rw [flattenEntries.eq_def]

theorem ends_dot_ne_attributes {s : String} (h : ∃ q, s.data = q ++ ['.']) :
    s ≠ "attributes" := by
  rintro rfl
  obtain ⟨q, hq⟩ := h
  have h2 := congrArg List.getLast? hq
  rw [List.getLast?_concat] at h2
  exact absurd h2 (by decide)

theorem append_pfx_ne_attributes {pfx k : String}
    (hp : pfx = "" ∨ ∃ q, pfx.data = q ++ ['.']) (hk : k ≠ "attributes") :
    pfx ++ k ≠ "attributes" := by
  rcases hp with rfl | ⟨q, hq⟩
  · simpa using hk
  · intro h
    have hd := congrArg String.data h
    rw [String.data_append, hq] at hd
    have hmem : ('.' : Char) ∈ "attributes".data := by
      rw [← hd]
      exact List.mem_append.2 (Or.inl (List.mem_append.2 (Or.inr (by simp))))
    exact absurd hmem (by decide)

theorem ends_sep_data (pfx k : String) :
    ∃ q, (pfx ++ k ++ ".").data = q ++ ['.'] :=
  ⟨(pfx ++ k).data, by rw [String.data_append]⟩

theorem flatten_keys_ne_attr (es : Entries) (pfx : String) (acc : Entries) :
    (pfx = "" ∨ ∃ q, pfx.data = q ++ ['.']) →
    (∀ p ∈ acc, p.1 ≠ "attributes") →
    ∀ p ∈ flattenEntries "." es pfx acc, p.1 ≠ "attributes" := by
  induction es, pfx, acc using flattenEntries.induct "." with
  | case1 pfx acc =>
    intro _ hacc
    rw [flattenEntries_nil]
    exact hacc
  | case2 k v rest pfx acc hk ih =>
    intro hp hacc
    rw [flattenEntries_cons, if_pos hk]
    exact ih hp hacc
  | case3 k rest pfx acc hk sd hsub ih =>
    intro hp hacc
    rw [flattenEntries_cons, if_neg hk]
    dsimp only
    rw [if_pos hsub]
    exact ih hp (forall_keys_dinsert (fun s => s ≠ "attributes") hacc
      (ends_dot_ne_attributes (ends_sep_data pfx k)))
  | case4 k rest pfx acc hk sd hsub ih1 ih2 =>
    intro hp hacc
    rw [flattenEntries_cons, if_neg hk]
    dsimp only
    rw [if_neg hsub]
    exact ih2 hp (ih1 (Or.inr (ends_sep_data pfx k)) hacc)
  | case5 k v rest pfx acc hk hnd ih =>
    intro hp hacc
    have hkne : k ≠ "attributes" := by simpa using hk
    rw [flattenEntries_cons, if_neg hk]
    cases v with
    | vDict sd => exact (hnd sd rfl).elim
    | vStr s =>
      exact ih hp (forall_keys_dinsert (fun s => s ≠ "attributes") hacc (append_pfx_ne_attributes hp hkne))
    | vInt n =>
      exact ih hp (forall_keys_dinsert (fun s => s ≠ "attributes") hacc (append_pfx_ne_attributes hp hkne))
    | vBool b =>
      exact ih hp (forall_keys_dinsert (fun s => s ≠ "attributes") hacc (append_pfx_ne_attributes hp hkne))
    | vNone =>
      exact ih hp (forall_keys_dinsert (fun s => s ≠ "attributes") hacc (append_pfx_ne_attributes hp hkne))
    | vList xs =>
      exact ih hp (forall_keys_dinsert (fun s => s ≠ "attributes") hacc (append_pfx_ne_attributes hp hkne))

theorem flatten_record_keys_ne_attr (r : PyVal) :
    ∀ p ∈ flatten_record r, p.1 ≠ "attributes" := by
  cases r with
  | vDict d =>
    unfold flatten_record
    dsimp only
    split
    · exact forall_keys_dinsert (fun s => s ≠ "attributes") (by simp) (by decide)
    · exact flatten_keys_ne_attr d "" [] (Or.inl rfl) (by simp)
  | vStr s => exact forall_keys_dinsert (fun s => s ≠ "attributes") (by simp) (by decide)
  | vInt n => exact forall_keys_dinsert (fun s => s ≠ "attributes") (by simp) (by decide)
  | vBool b => exact forall_keys_dinsert (fun s => s ≠ "attributes") (by simp) (by decide)
  | vNone => exact forall_keys_dinsert (fun s => s ≠ "attributes") (by simp) (by decide)
  | vList xs => exact forall_keys_dinsert (fun s => s ≠ "attributes") (by simp) (by decide)


theorem flattenEntries_mono (sep k' : String) (es : Entries) (pfx : String) (acc : Entries) :
    containsKey acc k' = true → containsKey (flattenEntries sep es pfx acc) k' = true := by
  induction es, pfx, acc using flattenEntries.induct sep with
  | case1 pfx acc =>
    intro h
    rw [flattenEntries_nil]
    exact h
  | case2 k v rest pfx acc hk ih =>
    intro h
    rw [flattenEntries_cons, if_pos hk]
    exact ih h
  | case3 k rest pfx acc hk sd hsub ih =>
    intro h
    rw [flattenEntries_cons, if_neg hk]
    dsimp only
    rw [if_pos hsub]
    exact ih (containsKey_dinsert_of _ _ h)
  | case4 k rest pfx acc hk sd hsub ih1 ih2 =>
    intro h
    rw [flattenEntries_cons, if_neg hk]
    dsimp only
    rw [if_neg hsub]
    exact ih2 (ih1 h)
  | case5 k v rest pfx acc hk hnd ih =>
    intro h
    rw [flattenEntries_cons, if_neg hk]
    cases v with
    | vDict sd => exact (hnd sd rfl).elim
    | vStr s => exact ih (containsKey_dinsert_of _ _ h)
    | vInt n => exact ih (containsKey_dinsert_of _ _ h)
    | vBool b => exact ih (containsKey_dinsert_of _ _ h)
    | vNone => exact ih (containsKey_dinsert_of _ _ h)
    | vList xs => exact ih (containsKey_dinsert_of _ _ h)

theorem flattenEntries_subquery_key (sep : String) {k : String} {sd : Entries}
    (hk : k ≠ "attributes") (hsub : isSubqueryShape sd = true) (es : Entries) :
    ∀ (pfx : String) (acc : Entries), (k, PyVal.vDict sd) ∈ es →
      containsKey (flattenEntries sep es pfx acc) (pfx ++ k ++ sep) = true := by
  induction es with
  | nil =>
    intro pfx acc h
    simp at h
  | cons hd rest ih =>
    intro pfx acc hmem
    obtain ⟨k0, v0⟩ := hd
    rcases List.mem_cons.1 hmem with heq | hmem2
    · obtain ⟨hk0, hv0⟩ := Prod.mk.injEq .. ▸ heq
      subst hk0
      rw [← hv0]
      rw [flattenEntries_cons, if_neg (by simpa using hk)]
      dsimp only
      rw [if_pos hsub]
      exact flattenEntries_mono sep _ rest pfx _ (containsKey_dinsert_self _ _ _)
    · by_cases hk0 : (k0 == "attributes") = true
      · rw [flattenEntries_cons, if_pos hk0]
        exact ih pfx acc hmem2
      · rw [flattenEntries_cons, if_neg hk0]
        cases v0 with
        | vDict sd0 =>
          dsimp only
          by_cases hs0 : isSubqueryShape sd0 = true
          · rw [if_pos hs0]
            exact ih pfx _ hmem2
          · rw [if_neg hs0]
            exact ih pfx _ hmem2
        | vStr s => exact ih pfx _ hmem2
        | vInt n => exact ih pfx _ hmem2
        | vBool b => exact ih pfx _ hmem2
        | vNone => exact ih pfx _ hmem2
        | vList xs => exact ih pfx _ hmem2

theorem flatten_record_subquery_key {d : Entries} {k : String} {sd : Entries}
    (hd : isSubqueryShape d = false) (hk : k ≠ "attributes")
    (hsub : isSubqueryShape sd = true) (hmem : (k, PyVal.vDict sd) ∈ d) :
    containsKey (flatten_record (PyVal.vDict d)) (k ++ ".") = true := by
  unfold flatten_record
  dsimp only
  rw [if_neg (by simp [hd])]
  have := flattenEntries_subquery_key "." hk hsub d "" [] hmem
  simpa using this

theorem keysDotFreeEntries_nil : keysDotFreeEntries [] = true := by
  rw [keysDotFreeEntries.eq_def]

theorem keysDotFreeEntries_cons (k : String) (v : PyVal) (rest : Entries) :
    keysDotFreeEntries ((k, v) :: rest) =
      ((!decide (('.' : Char) ∈ k.data)) &&
        (match v with
         | .vDict sd => if isSubqueryShape sd then true else keysDotFreeEntries sd
         | _ => true) &&
        keysDotFreeEntries rest) := by
  rw [keysDotFreeEntries.eq_def]

theorem append_no_attr_suffix {pfx k : String}
    (hp : pfx = "" ∨ ∃ q, pfx.data = q ++ ['.'])
    (hk : ('.' : Char) ∉ k.data) (hne : k ≠ "attributes") :
    ¬ ∃ t, (pfx ++ k).data = t ++ '.' :: "attributes".data := by
  rw [String.data_append]
  refine no_dot_attr_suffix ?_ hk (data_ne_of_ne hne)
  rcases hp with rfl | h
  · exact Or.inl rfl
  · exact Or.inr h

theorem flatten_keys_no_attr_suffix (es : Entries) (pfx : String) (acc : Entries) :
    (pfx = "" ∨ ∃ q, pfx.data = q ++ ['.']) →
    keysDotFreeEntries es = true →
    (∀ p ∈ acc, ¬ ∃ t, p.1.data = t ++ '.' :: "attributes".data) →
    ∀ p ∈ flattenEntries "." es pfx acc,
      ¬ ∃ t, p.1.data = t ++ '.' :: "attributes".data := by
  induction es, pfx, acc using flattenEntries.induct "." with
  | case1 pfx acc =>
    intro _ _ hacc
    rw [flattenEntries_nil]
    exact hacc
  | case2 k v rest pfx acc hk ih =>
    intro hp hdf hacc
    rw [keysDotFreeEntries_cons] at hdf
    rw [Bool.and_eq_true] at hdf
    obtain ⟨_, h3⟩ := hdf
    rw [flattenEntries_cons, if_pos hk]
    exact ih hp h3 hacc
  | case3 k rest pfx acc hk sd hsub ih =>
    intro hp hdf hacc
    rw [keysDotFreeEntries_cons] at hdf
    rw [Bool.and_eq_true] at hdf
    obtain ⟨_, h3⟩ := hdf
    rw [flattenEntries_cons, if_neg hk]
    dsimp only
    rw [if_pos hsub]
    exact ih hp h3 (forall_keys_dinsert
      (fun s => ¬ ∃ t, s.data = t ++ '.' :: "attributes".data) hacc
      (ends_dot_no_attr_suffix (ends_sep_data pfx k)))
  | case4 k rest pfx acc hk sd hsub ih1 ih2 =>
    intro hp hdf hacc
    rw [keysDotFreeEntries_cons] at hdf
    rw [Bool.and_eq_true, Bool.and_eq_true] at hdf
    obtain ⟨⟨_, h2⟩, h3⟩ := hdf
    dsimp only at h2
    rw [if_neg hsub] at h2
    rw [flattenEntries_cons, if_neg hk]
    dsimp only
    rw [if_neg hsub]
    exact ih2 hp h3 (ih1 (Or.inr (ends_sep_data pfx k)) h2 hacc)
  | case5 k v rest pfx acc hk hnd ih =>
    intro hp hdf hacc
    rw [keysDotFreeEntries_cons] at hdf
    rw [Bool.and_eq_true, Bool.and_eq_true] at hdf
    obtain ⟨⟨h1, _⟩, h3⟩ := hdf
    have hdot : ('.' : Char) ∉ k.data := by simpa using h1
    have hkne : k ≠ "attributes" := by simpa using hk
    rw [flattenEntries_cons, if_neg hk]
    cases v with
    | vDict sd => exact (hnd sd rfl).elim
    | vStr s => exact ih hp h3 (forall_keys_dinsert
        (fun s => ¬ ∃ t, s.data = t ++ '.' :: "attributes".data) hacc
        (append_no_attr_suffix hp hdot hkne))
    | vInt n => exact ih hp h3 (forall_keys_dinsert
        (fun s => ¬ ∃ t, s.data = t ++ '.' :: "attributes".data) hacc
        (append_no_attr_suffix hp hdot hkne))
    | vBool b => exact ih hp h3 (forall_keys_dinsert
        (fun s => ¬ ∃ t, s.data = t ++ '.' :: "attributes".data) hacc
        (append_no_attr_suffix hp hdot hkne))
    | vNone => exact ih hp h3 (forall_keys_dinsert
        (fun s => ¬ ∃ t, s.data = t ++ '.' :: "attributes".data) hacc
        (append_no_attr_suffix hp hdot hkne))
    | vList xs => exact ih hp h3 (forall_keys_dinsert
        (fun s => ¬ ∃ t, s.data = t ++ '.' :: "attributes".data) hacc
        (append_no_attr_suffix hp hdot hkne))

theorem empty_key_no_attr_suffix :
    ¬ ∃ t, ("" : String).data = t ++ '.' :: "attributes".data := by
  rintro ⟨t, ht⟩
  have := congrArg List.length ht
  simp at this

theorem flatten_record_no_attr_suffix (r : PyVal) (h : keysDotFree r = true) :
    ∀ p ∈ flatten_record r, ¬ ∃ t, p.1.data = t ++ '.' :: "attributes".data := by
  cases r with
  | vDict d =>
    unfold flatten_record
    dsimp only
    split
    case isTrue hs =>
      exact forall_keys_dinsert (fun s => ¬ ∃ t, s.data = t ++ '.' :: "attributes".data)
        (by simp) empty_key_no_attr_suffix
    case isFalse hs =>
      refine flatten_keys_no_attr_suffix d "" [] (Or.inl rfl) ?_ (by simp)
      unfold keysDotFree at h
      dsimp only at h
      rwa [if_neg hs] at h
  | vStr s =>
    exact forall_keys_dinsert (fun s => ¬ ∃ t, s.data = t ++ '.' :: "attributes".data)
      (by simp) empty_key_no_attr_suffix
  | vInt n =>
    exact forall_keys_dinsert (fun s => ¬ ∃ t, s.data = t ++ '.' :: "attributes".data)
      (by simp) empty_key_no_attr_suffix
  | vBool b =>
    exact forall_keys_dinsert (fun s => ¬ ∃ t, s.data = t ++ '.' :: "attributes".data)
      (by simp) empty_key_no_attr_suffix
  | vNone =>
    exact forall_keys_dinsert (fun s => ¬ ∃ t, s.data = t ++ '.' :: "attributes".data)
      (by simp) empty_key_no_attr_suffix
  | vList xs =>
    exact forall_keys_dinsert (fun s => ¬ ∃ t, s.data = t ++ '.' :: "attributes".data)
      (by simp) empty_key_no_attr_suffix

theorem stripAttrEntries_nil : stripAttrEntries [] = [] := by
  rw [stripAttrEntries.eq_def]

theorem stripAttrEntries_cons (k : String) (v : PyVal) (rest : Entries) :
    stripAttrEntries ((k, v) :: rest) =
      (if k == "attributes" then stripAttrEntries rest
       else
         match v with
         | .vDict sd =>
           (k, .vDict (if isSubqueryShape sd then sd else stripAttrEntries sd)) ::
             stripAttrEntries rest
         | _ => (k, v) :: stripAttrEntries rest) := by
  rw [stripAttrEntries.eq_def]

theorem containsKey_cons (a : String) (b : PyVal) (l : Entries) (k' : String) :
    containsKey ((a, b) :: l) k' = ((a == k') || containsKey l k') := rfl

theorem containsKey_strip (d : Entries) {k' : String} (h : k' ≠ "attributes") :
    containsKey (stripAttrEntries d) k' = containsKey d k' := by
  induction d with
  | nil => rw [stripAttrEntries_nil]
  | cons hd rest ih =>
    obtain ⟨k0, v0⟩ := hd
    rw [stripAttrEntries_cons]
    by_cases hk0 : (k0 == "attributes") = true
    · rw [if_pos hk0, ih, containsKey_cons]
      have hk0' : k0 = "attributes" := by simpa using hk0
      subst hk0'
      have hne : ("attributes" == k') = false := by
        simpa using (Ne.symm h)
      rw [hne, Bool.false_or]
    · rw [if_neg hk0]
      cases v0 with
      | vDict sd => rw [containsKey_cons, containsKey_cons, ih]
      | vStr s => rw [containsKey_cons, containsKey_cons, ih]
      | vInt n => rw [containsKey_cons, containsKey_cons, ih]
      | vBool b => rw [containsKey_cons, containsKey_cons, ih]
      | vNone => rw [containsKey_cons, containsKey_cons, ih]
      | vList xs => rw [containsKey_cons, containsKey_cons, ih]

theorem isSubqueryShape_strip (d : Entries) :
    isSubqueryShape (stripAttrEntries d) = isSubqueryShape d := by
  unfold isSubqueryShape
  rw [containsKey_strip d (by decide), containsKey_strip d (by decide)]

theorem flattenEntries_strip (sep : String) (es : Entries) (pfx : String) (acc : Entries) :
    flattenEntries sep (stripAttrEntries es) pfx acc = flattenEntries sep es pfx acc := by
  induction es, pfx, acc using flattenEntries.induct sep with
  | case1 pfx acc =>
    rw [stripAttrEntries_nil]
  | case2 k v rest pfx acc hk ih =>
    rw [stripAttrEntries_cons, if_pos hk, ih]
    conv_rhs => rw [flattenEntries_cons]
    rw [if_pos hk]
  | case3 k rest pfx acc hk sd hsub ih =>
    rw [stripAttrEntries_cons, if_neg hk]
    dsimp only
    rw [if_pos hsub]
    conv_lhs => rw [flattenEntries_cons]
    conv_rhs => rw [flattenEntries_cons]
    rw [if_neg hk, if_neg hk]
    dsimp only
    rw [if_pos hsub, if_pos hsub]
    exact ih
  | case4 k rest pfx acc hk sd hsub ih1 ih2 =>
    rw [stripAttrEntries_cons, if_neg hk]
    dsimp only
    rw [if_neg hsub]
    conv_lhs => rw [flattenEntries_cons]
    conv_rhs => rw [flattenEntries_cons]
    rw [if_neg hk, if_neg hk]
    dsimp only
    rw [isSubqueryShape_strip sd]
    rw [if_neg hsub, if_neg hsub]
    rw [ih1]
    exact ih2
  | case5 k v rest pfx acc hk hnd ih =>
    rw [stripAttrEntries_cons, if_neg hk]
    cases v with
    | vDict sd => exact (hnd sd rfl).elim
    | vStr s =>
      conv_lhs => rw [flattenEntries_cons]
      conv_rhs => rw [flattenEntries_cons]
      rw [if_neg hk, if_neg hk]
      exact ih
    | vInt n =>
      conv_lhs => rw [flattenEntries_cons]
      conv_rhs => rw [flattenEntries_cons]
      rw [if_neg hk, if_neg hk]
      exact ih
    | vBool b =>
      conv_lhs => rw [flattenEntries_cons]
      conv_rhs => rw [flattenEntries_cons]
      rw [if_neg hk, if_neg hk]
      exact ih
    | vNone =>
      conv_lhs => rw [flattenEntries_cons]
      conv_rhs => rw [flattenEntries_cons]
      rw [if_neg hk, if_neg hk]
      exact ih
    | vList xs =>
      conv_lhs => rw [flattenEntries_cons]
      conv_rhs => rw [flattenEntries_cons]
      rw [if_neg hk, if_neg hk]
      exact ih

theorem flatten_record_strip (sep : String) (r : PyVal) :
    flatten_record (stripAttrRecord r) sep = flatten_record r sep := by
  cases r with
  | vDict d =>
    unfold stripAttrRecord flatten_record
    dsimp only
    by_cases hs : isSubqueryShape d = true
    · rw [if_pos hs]
    · rw [if_neg hs]
      rw [isSubqueryShape_strip d, if_neg hs, if_neg hs]
      exact flattenEntries_strip sep d "" []
  | vStr s => rfl
  | vInt n => rfl
  | vBool b => rfl
  | vNone => rfl
  | vList xs => rfl

theorem dictGet_cons (a : String) (b : PyVal) (l : Entries) (k' : String) :
    dictGet ((a, b) :: l) k' = if (a == k') = true then some b else dictGet l k' := by
  unfold dictGet
  rw [List.find?_cons]
  by_cases h : (a == k') = true
  · simp [h]
  · simp [h]

theorem containsKey_filter_attr (d : Entries) {k' : String} (h : k' ≠ "attributes") :
    containsKey (d.filter (fun p => !(p.1 == "attributes"))) k' = containsKey d k' := by
  induction d with
  | nil => rw [List.filter_nil]
  | cons hd rest ih =>
    obtain ⟨k0, v0⟩ := hd
    by_cases hk0 : (k0 == "attributes") = true
    · rw [List.filter_cons_of_neg (by simp [hk0])]
      rw [ih, containsKey_cons]
      have hk0' : k0 = "attributes" := by simpa using hk0
      subst hk0'
      have hne : ("attributes" == k') = false := by simpa using (Ne.symm h)
      rw [hne, Bool.false_or]
    · rw [List.filter_cons_of_pos (by simp [hk0])]
      rw [containsKey_cons, containsKey_cons, ih]

theorem dictGet_filter_attr (d : Entries) {k' : String} (h : k' ≠ "attributes") :
    dictGet (d.filter (fun p => !(p.1 == "attributes"))) k' = dictGet d k' := by
  induction d with
  | nil => rw [List.filter_nil]
  | cons hd rest ih =>
    obtain ⟨k0, v0⟩ := hd
    by_cases hk0 : (k0 == "attributes") = true
    · rw [List.filter_cons_of_neg (by simp [hk0])]
      rw [ih, dictGet_cons]
      have hk0' : k0 = "attributes" := by simpa using hk0
      subst hk0'
      have hne : ("attributes" == k') = false := by simpa using (Ne.symm h)
      rw [hne]
      simp
    · rw [List.filter_cons_of_pos (by simp [hk0])]
      rw [dictGet_cons, dictGet_cons, ih]

theorem isSubqueryShape_filter_attr (d : Entries) :
    isSubqueryShape (d.filter (fun p => !(p.1 == "attributes"))) = isSubqueryShape d := by
  unfold isSubqueryShape
  rw [containsKey_filter_attr d (by decide), containsKey_filter_attr d (by decide)]

theorem subqueryMarker_filter_attr (d : Entries) :
    subqueryMarker (d.filter (fun p => !(p.1 == "attributes"))) = subqueryMarker d := by
  unfold subqueryMarker dictGetD
  rw [dictGet_filter_attr d (by decide), dictGet_filter_attr d (by decide)]

theorem flattenEntries_filter_attr (sep : String) (es : Entries) :
    ∀ (pfx : String) (acc : Entries),
      flattenEntries sep (es.filter (fun p => !(p.1 == "attributes"))) pfx acc =
        flattenEntries sep es pfx acc := by
  induction es with
  | nil =>
    intro pfx acc
    rw [List.filter_nil]
  | cons hd rest ih =>
    intro pfx acc
    obtain ⟨k0, v0⟩ := hd
    by_cases hk0 : (k0 == "attributes") = true
    · rw [List.filter_cons_of_neg (by simp [hk0])]
      rw [ih]
      conv_rhs => rw [flattenEntries_cons]
      rw [if_pos hk0]
    · rw [List.filter_cons_of_pos (by simp [hk0])]
      conv_lhs => rw [flattenEntries_cons]
      conv_rhs => rw [flattenEntries_cons]
      rw [if_neg hk0, if_neg hk0]
      cases v0 with
      | vDict sd =>
        dsimp only
        by_cases hs : isSubqueryShape sd = true
        · rw [if_pos hs, if_pos hs, ih]
        · rw [if_neg hs, if_neg hs, ih]
      | vStr s => exact ih pfx _
      | vInt n => exact ih pfx _
      | vBool b => exact ih pfx _
      | vNone => exact ih pfx _
      | vList xs => exact ih pfx _

theorem flatten_record_filter_attr (sep : String) (d : Entries) :
    flatten_record (PyVal.vDict (d.filter (fun p => !(p.1 == "attributes")))) sep =
      flatten_record (PyVal.vDict d) sep := by
  unfold flatten_record
  dsimp only
  rw [isSubqueryShape_filter_attr]
  split
  · rw [subqueryMarker_filter_attr]
  · exact flattenEntries_filter_attr sep d "" []

/-- C2 (amended): `flatten_record` never recurses into a value that has both
`records` and `done` keys: the entry is emitted under the current prefix —
which is the entry's key FOLLOWED BY the separator (`"Contacts."`, not
`"Contacts"`) — as the tagged marker `{_is_subquery: true, count: totalSize,
records: <unchanged sub-records>}`. First conjunct: the hard recursion
boundary as a general rewriting equation. Second conjunct: for every
non-sub-query record containing such an entry, the key-plus-separator is a
key of the output. Third conjunct: the spec's concrete example (totalSize 3,
three sub-records) evaluates to exactly the marker entry under `"Contacts."`
with `count = 3` and the original unflattened records, and no dot-prefixed
key derived from inside the value. -/
theorem c2_subquery_boundary_amended :
    (∀ (sep k : String) (sd rest : Entries) (pfx : String) (acc : Entries),
      k ≠ "attributes" → isSubqueryShape sd = true →
      flattenEntries sep ((k, PyVal.vDict sd) :: rest) pfx acc =
        flattenEntries sep rest pfx (dinsert acc (pfx ++ k ++ sep) (subqueryMarker sd))) ∧
    (∀ (d : Entries) (k : String) (sd : Entries),
      isSubqueryShape d = false → k ≠ "attributes" → isSubqueryShape sd = true →
      (k, PyVal.vDict sd) ∈ d →
      containsKey (flatten_record (PyVal.vDict d)) (k ++ ".") = true) ∧
    flatten_record (PyVal.vDict
      [("Name", .vStr "A"),
       ("Contacts", .vDict
         [("totalSize", .vInt 3), ("done", .vBool true),
          ("records", .vList [.vDict [("Name", .vStr "c1")],
            .vDict [("Name", .vStr "c2")], .vDict [("Name", .vStr "c3")]])])]) =
      [("Name", .vStr "A"),
       ("Contacts.", .vDict
         [("_is_subquery", .vBool true), ("count", .vInt 3),
          ("records", .vList [.vDict [("Name", .vStr "c1")],
            .vDict [("Name", .vStr "c2")], .vDict [("Name", .vStr "c3")]])])] := by
  refine ⟨?_, ?_, ?_⟩
  · intro sep k sd rest pfx acc hk hsub
    rw [flattenEntries_cons, if_neg (by simpa using hk)]
    dsimp only
    rw [if_pos hsub]
  · intro d k sd hd hk hsub hmem
    exact flatten_record_subquery_key hd hk hsub hmem
  · simp [flatten_record, flattenEntries, isSubqueryShape, containsKey, dinsert,
      subqueryMarker, dictGetD, dictGet, List.find?]

/-- C2 counterexample: the claim states that the output maps THAT KEY to the
tagged marker. At the concrete record whose key `Contacts` holds a sub-query
page, the output has no key `Contacts` at all — the marker is stored under
`Contacts.` (the current prefix, with the trailing separator, is used at
query/views.py:39). -/
theorem c2_subquery_boundary_counterexample :
    containsKey (flatten_record (PyVal.vDict
      [("Contacts", .vDict [("totalSize", .vInt 3), ("done", .vBool true),
        ("records", .vList [])])])) "Contacts" = false ∧
    containsKey (flatten_record (PyVal.vDict
      [("Contacts", .vDict [("totalSize", .vInt 3), ("done", .vBool true),
        ("records", .vList [])])])) "Contacts." = true := by
  constructor <;>
    simp [flatten_record, flattenEntries, isSubqueryShape, containsKey, dinsert,
      subqueryMarker, dictGetD, dictGet, List.find?]

/-- C2 witness: the amended theorem's membership conjunct applied to the
concrete example record. -/
theorem c2_subquery_boundary_witness :
    containsKey (flatten_record (PyVal.vDict
      [("Name", .vStr "A"),
       ("Contacts", .vDict [("totalSize", .vInt 3), ("done", .vBool true),
         ("records", .vList [])])])) ("Contacts" ++ ".") = true :=
  c2_subquery_boundary_amended.2.1
    [("Name", .vStr "A"),
     ("Contacts", .vDict [("totalSize", .vInt 3), ("done", .vBool true),
       ("records", .vList [])])]
    "Contacts"
    [("totalSize", .vInt 3), ("done", .vBool true), ("records", .vList [])]
    (by decide) (by decide) (by decide) (by simp)

/-- C6 counterexample: the claim states that a top-level `attributes` entry is
preserved verbatim in the output of `flatten_record` under the key
`attributes`. At this concrete record the flattened output is exactly
`{Name: A}` — the `attributes` entry is dropped (the loop at
query/views.py:47-48 skips the key at every level, the top included). -/
theorem c6_attributes_preserved_counterexample :
    flatten_record (PyVal.vDict
      [("attributes", .vDict [("type", .vStr "Account"), ("url", .vStr "/id/1")]),
       ("Name", .vStr "A")]) = [("Name", .vStr "A")] := by
  simp [flatten_record, flattenEntries, isSubqueryShape, containsKey, dinsert]

/-- C6 (amended): a top-level `attributes` entry is DROPPED by
`flatten_record`, never emitted, while all other output entries are
unaffected by its presence: flattening a dict with its `attributes` entries
filtered out yields the identical output, and no output entry ever has the
key `attributes`. (The callers that need the type/URL metadata re-attach
`record['attributes']` to the flattened dict themselves afterwards,
query/views.py:206-208 and 480-482.) -/
theorem c6_attributes_dropped_frame :
    (∀ (sep : String) (d : Entries),
      flatten_record (PyVal.vDict (d.filter (fun p => !(p.1 == "attributes")))) sep =
        flatten_record (PyVal.vDict d) sep) ∧
    (∀ r : PyVal, ∀ p ∈ flatten_record r, p.1 ≠ "attributes") :=
  ⟨flatten_record_filter_attr, flatten_record_keys_ne_attr⟩

/-- C6 witness: both conjuncts instantiated at a concrete record carrying a
top-level attributes entry. -/
theorem c6_attributes_dropped_frame_witness :
    flatten_record (PyVal.vDict
      (([("attributes", .vStr "x"), ("Name", .vStr "A")] : Entries).filter
        (fun p => !(p.1 == "attributes")))) "." =
      flatten_record (PyVal.vDict [("attributes", .vStr "x"), ("Name", .vStr "A")]) "." ∧
    ("Name" : String) ≠ "attributes" :=
  ⟨c6_attributes_dropped_frame.1 "." [("attributes", .vStr "x"), ("Name", .vStr "A")],
   c6_attributes_dropped_frame.2
     (PyVal.vDict [("attributes", .vStr "x"), ("Name", .vStr "A")])
     ("Name", .vStr "A")
     (by simp [flatten_record, flattenEntries, isSubqueryShape, containsKey, dinsert])⟩

/-- C10 counterexample: the claim states that for EVERY input record no output
key ends with `.attributes`. An input key that itself contains the separator,
such as the literal key `x.attributes`, is not named `attributes`, so
query/views.py:47 does not skip it and its value is emitted verbatim under
that key — an output key ending in `.attributes`. -/
theorem c10_attr_suffix_counterexample :
    flatten_record (PyVal.vDict [("x.attributes", .vInt 1)]) =
      [("x.attributes", .vInt 1)] ∧
    ("x.attributes" : String) = "x" ++ ".attributes" := by
  constructor
  · simp [flatten_record, flattenEntries, isSubqueryShape, containsKey, dinsert]
  · rfl

/-- C10 (amended): `flatten_record` drops every key named `attributes` at
every nesting depth: (a) no key of the flattened output is `attributes`, for
every input record; (b) provided every key of every dict the flattening
recursion walks is free of the separator character `.`, no output key ends
with `.attributes` (formally: no output key's character list has
`'.' :: "attributes".data` as a suffix); (c) values stored under `attributes`
keys never contribute any entry to the output — flattening the record with
all walked `attributes` entries removed (`stripAttrRecord`) yields the
identical output. -/
theorem c10_nested_attributes_dropped :
    (∀ r : PyVal, ∀ p ∈ flatten_record r, p.1 ≠ "attributes") ∧
    (∀ r : PyVal, keysDotFree r = true →
      ∀ p ∈ flatten_record r, ¬ ∃ t, p.1.data = t ++ '.' :: "attributes".data) ∧
    (∀ (sep : String) (r : PyVal),
      flatten_record (stripAttrRecord r) sep = flatten_record r sep) :=
  ⟨flatten_record_keys_ne_attr, flatten_record_no_attr_suffix, flatten_record_strip⟩

/-- C10 witness: the suffix conjunct applied to a concrete nested record with
dot-free keys, at its dot-joined output key. -/
theorem c10_nested_attributes_dropped_witness :
    ¬ ∃ t, ("Parent.Name" : String).data = t ++ '.' :: "attributes".data :=
  c10_nested_attributes_dropped.2.1
    (PyVal.vDict [("Parent", .vDict [("Name", .vStr "B")])])
    (by simp [keysDotFree, keysDotFreeEntries_cons, keysDotFreeEntries_nil,
      isSubqueryShape, containsKey])
    ("Parent.Name", .vStr "B")
    (by simp [flatten_record, flattenEntries, isSubqueryShape, containsKey, dinsert])
